import Mathlib

/-!
Verification of the interval-reduction (timeline segmenter) and
frame-selection (thumbnail generator) core of the dj_set_processor
repository.  Times are modelled as exact rationals; Python lists become
Lean lists; Python dicts `{'start_time': s, 'end_time': e}` become the
`Seg` structure.  Fallible library calls are modelled with `Option`.
-/

/-- A time interval `{'start_time': s, 'end_time': e}` as used by
`VideoEditor` (`src/modules/video_editor/video_editor.py`).  Spans the
half-open range `[start_time, end_time)` of the video timeline. -/
structure Seg where
  start_time : ℚ
  end_time : ℚ
deriving DecidableEq

/-- The set of time points covered by one segment (half-open). -/
def segSet (s : Seg) : Set ℚ := Set.Ico s.start_time s.end_time

/-- Union of the spans of all segments in a list. -/
def listUnion (l : List Seg) : Set ℚ := l.foldr (fun s acc => segSet s ∪ acc) ∅

/-- Embeds the middle loop of `VideoEditor._get_segments_to_keep`
(video_editor.py lines 276-284): for each adjacent pair of
remove-segments, emit the gap between them when it is non-empty. -/
def betweenSegs (l : List Seg) : List Seg :=
  (l.zip l.tail).filterMap fun p =>
    if p.2.start_time > p.1.end_time then
      some { start_time := p.1.end_time, end_time := p.2.start_time }
    else none

/-- Embeds `VideoEditor._get_segments_to_keep` (video_editor.py lines
251-293): complement of the remove-segments inside `[0, duration)`.
Empty input returns the whole span; otherwise an optional head piece
`[0, first.start)`, the gaps between adjacent remove-segments, and an
optional tail piece `[last.end, duration)`. -/
def getSegmentsToKeep (removeSegs : List Seg) (duration : ℚ) : List Seg :=
  match removeSegs with
  | [] => [{ start_time := 0, end_time := duration }]
  | r0 :: rest =>
    (if r0.start_time > 0 then
        [{ start_time := 0, end_time := r0.start_time }]
      else []) ++
    betweenSegs (r0 :: rest) ++
    (if (List.getLast (r0 :: rest) (List.cons_ne_nil r0 rest)).end_time < duration then
        [{ start_time := (List.getLast (r0 :: rest) (List.cons_ne_nil r0 rest)).end_time,
           end_time := duration }]
      else [])

/-- Recursive reformulation of the complement: the keep-pieces of
`[t, duration)` left of, between and after the remove-segments, where
`t` is the point reached so far.  `getSegmentsToKeep` on a non-empty
list equals `keepFromAux 0`. -/
def keepFromAux (t : ℚ) (removeSegs : List Seg) (duration : ℚ) : List Seg :=
  match removeSegs with
  | [] => if t < duration then [{ start_time := t, end_time := duration }] else []
  | r :: rest =>
    (if t < r.start_time then [{ start_time := t, end_time := r.start_time }] else []) ++
    keepFromAux r.end_time rest duration

/-- Well-formed remove list starting from time `t`: sorted,
pairwise non-overlapping, positive-duration segments inside `[t, D]`. -/
def wfRemove (t D : ℚ) : List Seg → Prop
  | [] => t ≤ D
  | r :: rest => t ≤ r.start_time ∧ r.start_time < r.end_time ∧ wfRemove r.end_time D rest

/-- A list of segments exactly tiles `[0, D)`: their spans cover exactly
that range and are pairwise disjoint (no gaps, no overlaps). -/
def exactTiling (l : List Seg) (D : ℚ) : Prop :=
  listUnion l = Set.Ico 0 D ∧ l.Pairwise fun a b => Disjoint (segSet a) (segSet b)

-- sanity checks (removed markers: these are plain examples)
example : getSegmentsToKeep [] 30 = [⟨0, 30⟩] := rfl
example : getSegmentsToKeep [⟨6, 12⟩, ⟨18, 24⟩] 30 = [⟨0, 6⟩, ⟨12, 18⟩, ⟨24, 30⟩] := by decide
example : keepFromAux 0 [⟨6, 12⟩, ⟨18, 24⟩] 30 = [⟨0, 6⟩, ⟨12, 18⟩, ⟨24, 30⟩] := by decide

lemma betweenSegs_suffix_eq (D : ℚ) :
    ∀ (rest : List Seg) (prev : Seg),
      betweenSegs (prev :: rest) ++
        (if (List.getLast (prev :: rest) (List.cons_ne_nil prev rest)).end_time < D then
          [{ start_time := (List.getLast (prev :: rest) (List.cons_ne_nil prev rest)).end_time,
             end_time := D }]
        else []) =
      keepFromAux prev.end_time rest D := by
  intro rest
  induction rest with
  | nil =>
    intro prev
    simp [betweenSegs, keepFromAux]
  | cons r1 rest' ih =>
    intro prev
    have hbetween : betweenSegs (prev :: r1 :: rest') =
        (if r1.start_time > prev.end_time then
          [{ start_time := prev.end_time, end_time := r1.start_time }] else []) ++
        betweenSegs (r1 :: rest') := by
      by_cases h : r1.start_time > prev.end_time <;>
        simp [betweenSegs, List.filterMap_cons, h]
    have hlast : List.getLast (prev :: r1 :: rest') (List.cons_ne_nil prev (r1 :: rest')) =
        List.getLast (r1 :: rest') (List.cons_ne_nil r1 rest') :=
      List.getLast_cons (List.cons_ne_nil r1 rest')
    rw [hbetween, hlast, List.append_assoc, ih r1]
    rfl

lemma getSegmentsToKeep_eq_keepFromAux (r : Seg) (rest : List Seg) (D : ℚ) :
    getSegmentsToKeep (r :: rest) D = keepFromAux 0 (r :: rest) D := by
  show _ ++ _ ++ _ = _ ++ _
  rw [List.append_assoc, betweenSegs_suffix_eq D rest r]

lemma wfRemove_le (D : ℚ) : ∀ (l : List Seg) (t : ℚ), wfRemove t D l → t ≤ D := by
  intro l
  induction l with
  | nil => intro t h; exact h
  | cons r rest ih =>
    intro t h
    obtain ⟨h1, h2, h3⟩ := h
    exact le_trans h1 (le_trans (le_of_lt h2) (ih r.end_time h3))

lemma wfRemove_mem_bounds (D : ℚ) :
    ∀ (l : List Seg) (t : ℚ), wfRemove t D l → ∀ r ∈ l,
      t ≤ r.start_time ∧ r.start_time < r.end_time ∧ r.end_time ≤ D := by
  intro l
  induction l with
  | nil => intro t _ r hr; exact absurd hr (List.not_mem_nil r)
  | cons r0 rest ih =>
    intro t h r hr
    obtain ⟨h1, h2, h3⟩ := h
    rcases List.mem_cons.mp hr with rfl | hr'
    · exact ⟨h1, h2, wfRemove_le D rest r.end_time h3⟩
    · obtain ⟨ha, hb, hc⟩ := ih r0.end_time h3 r hr'
      exact ⟨le_trans h1 (le_trans (le_of_lt h2) ha), hb, hc⟩

lemma keepFromAux_mem_bounds (D : ℚ) :
    ∀ (l : List Seg) (t : ℚ), wfRemove t D l → ∀ k ∈ keepFromAux t l D,
      t ≤ k.start_time ∧ k.start_time < k.end_time := by
  intro l
  induction l with
  | nil =>
    intro t _ k hk
    simp only [keepFromAux] at hk
    split at hk
    · rcases List.mem_singleton.mp hk with rfl
      exact ⟨le_refl _, by assumption⟩
    · exact absurd hk (List.not_mem_nil k)
  | cons r rest ih =>
    intro t hwf k hk
    obtain ⟨h1, h2, h3⟩ := hwf
    simp only [keepFromAux, List.mem_append] at hk
    rcases hk with hk | hk
    · split at hk
      · rcases List.mem_singleton.mp hk with rfl
        exact ⟨le_refl _, by assumption⟩
      · exact absurd hk (List.not_mem_nil k)
    · obtain ⟨ha, hb⟩ := ih r.end_time h3 k hk
      exact ⟨le_trans (le_trans h1 (le_of_lt h2)) ha, hb⟩

lemma mem_listUnion {x : ℚ} : ∀ {l : List Seg}, x ∈ listUnion l ↔ ∃ s ∈ l, x ∈ segSet s := by
  intro l
  induction l with
  | nil => simp [listUnion]
  | cons s rest ih =>
    simp only [listUnion, List.foldr_cons, Set.mem_union, List.mem_cons]
    constructor
    · rintro (hx | hx)
      · exact ⟨s, Or.inl rfl, hx⟩
      · obtain ⟨u, hu, hxu⟩ := ih.mp hx
        exact ⟨u, Or.inr hu, hxu⟩
    · rintro ⟨u, rfl | hu, hxu⟩
      · exact Or.inl hxu
      · exact Or.inr (ih.mpr ⟨u, hu, hxu⟩)

lemma keepFromAux_cover (D : ℚ) :
    ∀ (l : List Seg) (t : ℚ), wfRemove t D l → ∀ x : ℚ,
      ((x ∈ listUnion (keepFromAux t l D)) ∨ (x ∈ listUnion l)) ↔ (t ≤ x ∧ x < D) := by
  intro l
  induction l with
  | nil =>
    intro t hle x
    simp only [keepFromAux, listUnion, List.foldr_nil]
    constructor
    · rintro (hx | hx)
      · split at hx
        · simpa [listUnion, segSet] using hx
        · simp at hx
      · simp at hx
    · rintro ⟨h1, h2⟩
      left
      have htD : t < D := lt_of_le_of_lt h1 h2
      simp only [if_pos htD]
      simpa [listUnion, segSet] using ⟨h1, h2⟩
  | cons r rest ih =>
    intro t hwf x
    obtain ⟨h1, h2, h3⟩ := hwf
    have hreD : r.end_time ≤ D := wfRemove_le D rest r.end_time h3
    have hIH := ih r.end_time h3 x
    simp only [keepFromAux] at *
    constructor
    · rintro (hx | hx)
      · rw [mem_listUnion] at hx
        obtain ⟨s, hs, hxs⟩ := hx
        rcases List.mem_append.mp hs with hs | hs
        · split at hs
          · rcases List.mem_singleton.mp hs with rfl
            obtain ⟨ha, hb⟩ := hxs
            exact ⟨ha, lt_of_lt_of_le hb (le_trans (le_of_lt h2) hreD)⟩
          · exact absurd hs (List.not_mem_nil s)
        · have : r.end_time ≤ x ∧ x < D := hIH.mp (Or.inl (mem_listUnion.mpr ⟨s, hs, hxs⟩))
          exact ⟨le_trans (le_trans h1 (le_of_lt h2)) this.1, this.2⟩
      · rw [mem_listUnion] at hx
        obtain ⟨s, hs, hxs⟩ := hx
        rcases List.mem_cons.mp hs with rfl | hs
        · obtain ⟨ha, hb⟩ := hxs
          exact ⟨le_trans h1 ha, lt_of_lt_of_le hb hreD⟩
        · have : r.end_time ≤ x ∧ x < D := hIH.mp (Or.inr (mem_listUnion.mpr ⟨s, hs, hxs⟩))
          exact ⟨le_trans (le_trans h1 (le_of_lt h2)) this.1, this.2⟩
    · rintro ⟨hx1, hx2⟩
      by_cases hxr : x < r.start_time
      · left
        rw [mem_listUnion]
        refine ⟨{ start_time := t, end_time := r.start_time }, ?_, hx1, hxr⟩
        have : t < r.start_time := lt_of_le_of_lt hx1 hxr
        simp [this]
      · by_cases hxe : x < r.end_time
        · right
          rw [mem_listUnion]
          exact ⟨r, List.mem_cons_self r rest, le_of_not_lt hxr, hxe⟩
        · have : r.end_time ≤ x ∧ x < D := ⟨le_of_not_lt hxe, hx2⟩
          rcases hIH.mpr this with hx | hx
          · left
            rw [mem_listUnion] at hx ⊢
            obtain ⟨s, hs, hxs⟩ := hx
            exact ⟨s, List.mem_append.mpr (Or.inr hs), hxs⟩
          · right
            rw [mem_listUnion] at hx ⊢
            obtain ⟨s, hs, hxs⟩ := hx
            exact ⟨s, List.mem_cons.mpr (Or.inr hs), hxs⟩

lemma keepFromAux_cross (D : ℚ) :
    ∀ (l : List Seg) (t : ℚ), wfRemove t D l →
      ∀ k ∈ keepFromAux t l D, ∀ r ∈ l,
        k.end_time ≤ r.start_time ∨ r.end_time ≤ k.start_time := by
  intro l
  induction l with
  | nil => intro t _ k _ r hr; exact absurd hr (List.not_mem_nil r)
  | cons r0 rest ih =>
    intro t hwf k hk r hr
    obtain ⟨h1, h2, h3⟩ := hwf
    simp only [keepFromAux, List.mem_append] at hk
    rcases hk with hk | hk
    · split at hk
      · rcases List.mem_singleton.mp hk with rfl
        rcases List.mem_cons.mp hr with rfl | hr'
        · exact Or.inl (le_refl _)
        · have := (wfRemove_mem_bounds D rest r0.end_time h3 r hr').1
          exact Or.inl (le_trans (le_of_lt h2) this)
      · exact absurd hk (List.not_mem_nil k)
    · rcases List.mem_cons.mp hr with rfl | hr'
      · exact Or.inr (keepFromAux_mem_bounds D rest r.end_time h3 k hk).1
      · exact ih r0.end_time h3 k hk r hr'

lemma keepFromAux_pairwise (D : ℚ) :
    ∀ (l : List Seg) (t : ℚ), wfRemove t D l →
      (keepFromAux t l D).Pairwise fun a b => a.end_time ≤ b.start_time := by
  intro l
  induction l with
  | nil =>
    intro t _
    simp only [keepFromAux]
    split <;> simp
  | cons r rest ih =>
    intro t hwf
    obtain ⟨h1, h2, h3⟩ := hwf
    simp only [keepFromAux]
    rw [List.pairwise_append]
    refine ⟨?_, ih r.end_time h3, ?_⟩
    · split <;> simp
    · intro a ha b hb
      split at ha
      · rcases List.mem_singleton.mp ha with rfl
        have := (keepFromAux_mem_bounds D rest r.end_time h3 b hb).1
        exact le_trans (le_of_lt h2) this
      · exact absurd ha (List.not_mem_nil a)

lemma wfRemove_pairwise (D : ℚ) :
    ∀ (l : List Seg) (t : ℚ), wfRemove t D l →
      l.Pairwise fun a b => a.end_time ≤ b.start_time := by
  intro l
  induction l with
  | nil => intro t _; exact List.Pairwise.nil
  | cons r rest ih =>
    intro t hwf
    obtain ⟨_, _, h3⟩ := hwf
    refine List.Pairwise.cons ?_ (ih r.end_time h3)
    intro b hb
    exact (wfRemove_mem_bounds D rest r.end_time h3 b hb).1

lemma segSet_disjoint {a b : Seg}
    (h : a.end_time ≤ b.start_time ∨ b.end_time ≤ a.start_time) :
    Disjoint (segSet a) (segSet b) := by
  rw [Set.disjoint_left]
  rintro x ⟨ha1, ha2⟩ ⟨hb1, hb2⟩
  rcases h with h | h
  · exact absurd (lt_of_lt_of_le ha2 h) (not_lt.mpr hb1)
  · exact absurd (lt_of_lt_of_le hb2 h) (not_lt.mpr ha1)

lemma listUnion_append (l1 l2 : List Seg) :
    listUnion (l1 ++ l2) = listUnion l1 ∪ listUnion l2 := by
  induction l1 with
  | nil => simp [listUnion]
  | cons s rest ih =>
    simp only [listUnion, List.cons_append, List.foldr_cons] at *
    rw [ih, Set.union_assoc]

lemma wfRemove_of_props (D : ℚ) :
    ∀ (l : List Seg) (t : ℚ),
      l.Chain' (fun a b => a.end_time ≤ b.start_time) →
      (∀ r ∈ l, r.start_time < r.end_time) →
      (∀ r ∈ l, r.end_time ≤ D) →
      (l = [] → t ≤ D) →
      (∀ a rest, l = a :: rest → t ≤ a.start_time) →
      wfRemove t D l := by
  intro l
  induction l with
  | nil => intro t _ _ _ h4 _; exact h4 rfl
  | cons a rest ih =>
    intro t hchain hpos hend _ hstart
    obtain ⟨hhead, htail⟩ := List.chain'_cons'.mp hchain
    refine ⟨hstart a rest rfl, hpos a (List.mem_cons_self a rest), ?_⟩
    refine ih a.end_time htail
      (fun r hr => hpos r (List.mem_cons.mpr (Or.inr hr)))
      (fun r hr => hend r (List.mem_cons.mpr (Or.inr hr)))
      (fun _ => hend a (List.mem_cons_self a rest))
      ?_
    intro b rest' hb
    subst hb
    exact hhead b rfl

/-- C1: for every duration `D > 0` and every non-empty remove list that is
sorted by start, pairwise non-overlapping, of positive duration and
contained in `[0, D)`, the keep segments computed by
`_get_segments_to_keep` together with the remove segments exactly tile
`[0, D)` (their spans cover exactly `[0, D)` and are pairwise
disjoint), and the complement of the empty remove list is the single
segment `[0, D)`. -/
theorem complement_remove_exactly_tiles :
    (∀ (removeSegs : List Seg) (D : ℚ), 0 < D → removeSegs ≠ [] →
      removeSegs.Chain' (fun a b => a.end_time ≤ b.start_time) →
      (∀ r ∈ removeSegs, r.start_time < r.end_time) →
      (∀ r ∈ removeSegs, 0 ≤ r.start_time ∧ r.end_time ≤ D) →
      exactTiling (getSegmentsToKeep removeSegs D ++ removeSegs) D) ∧
    (∀ D : ℚ, 0 < D →
      getSegmentsToKeep [] D = [{ start_time := 0, end_time := D }]) := by
  constructor
  · intro removeSegs D _ hne hchain hpos hbounds
    match removeSegs, hne with
    | r :: rest, _ =>
      have hwf : wfRemove 0 D (r :: rest) := by
        refine wfRemove_of_props D (r :: rest) 0 hchain hpos
          (fun s hs => (hbounds s hs).2) (by intro h; exact absurd h (List.cons_ne_nil r rest)) ?_
        intro a rest' ha
        have : a ∈ r :: rest := by rw [ha]; exact List.mem_cons_self a rest'
        exact (hbounds a this).1
      rw [getSegmentsToKeep_eq_keepFromAux]
      constructor
      · ext x
        rw [listUnion_append]
        simp only [Set.mem_union, Set.mem_Ico]
        exact keepFromAux_cover D (r :: rest) 0 hwf x
      · rw [List.pairwise_append]
        refine ⟨(keepFromAux_pairwise D (r :: rest) 0 hwf).imp
            (fun h => segSet_disjoint (Or.inl h)),
          (wfRemove_pairwise D (r :: rest) 0 hwf).imp
            (fun h => segSet_disjoint (Or.inl h)), ?_⟩
        intro a ha b hb
        exact segSet_disjoint (keepFromAux_cross D (r :: rest) 0 hwf a ha b hb)
  · intro D _
    rfl

/-- Witness for C1 at the concrete inputs `remove = [[1,2)]`, `D = 3`
and `remove = []`, `D = 2`. -/
theorem complement_remove_exactly_tiles_witness :
    exactTiling (getSegmentsToKeep [⟨1, 2⟩] 3 ++ [⟨1, 2⟩]) 3 ∧
    getSegmentsToKeep [] 2 = [{ start_time := 0, end_time := 2 }] :=
  ⟨complement_remove_exactly_tiles.1 [⟨1, 2⟩] 3 (by norm_num) (by simp)
      (by simp) (by decide) (by decide),
    complement_remove_exactly_tiles.2 2 (by norm_num)⟩

/-- Embeds one iteration of the loop body of
`VideoEditor._merge_short_segments` (video_editor.py lines 316-332);
`acc` is the `merged_segments` list, always non-empty in the source, so
`getLastD`/`dropLast` model the Python `merged_segments[-1]` access and
in-place replacement. -/
def mergeShortStep (minDuration : ℚ) (acc : List Seg) (seg : Seg) : List Seg :=
  let lastSeg := acc.getLastD { start_time := 0, end_time := 0 }
  if seg.end_time - seg.start_time < minDuration then
    if lastSeg.end_time - lastSeg.start_time < minDuration then
      acc.dropLast ++ [{ start_time := lastSeg.start_time, end_time := seg.end_time }]
    else acc ++ [seg]
  else acc ++ [seg]

/-- Embeds `VideoEditor._merge_short_segments` (video_editor.py lines
295-334): empty input returns empty, a single segment is returned
unchanged, otherwise a left-to-right pass seeded with the first
segment. -/
def mergeShortSegments (minDuration : ℚ) (segments : List Seg) : List Seg :=
  match segments with
  | [] => []
  | s :: rest =>
    if rest = [] then s :: rest
    else List.foldl (mergeShortStep minDuration) [s] rest

/-- Modelled from the spec's description of `merge_short` (§4.4): `a` is
the accumulator's last interval; a subsequent interval is merged into it
(extending its end) iff both its own duration and `a`'s duration are
strictly below `minDuration`, otherwise it is appended unmodified and
becomes the new last interval.  Frozen intervals are emitted in front. -/
def mergeShortSpecLoop (minDuration : ℚ) : List Seg → Seg → List Seg
  | [], a => [a]
  | s :: rest, a =>
    if s.end_time - s.start_time < minDuration ∧ a.end_time - a.start_time < minDuration then
      mergeShortSpecLoop minDuration rest { start_time := a.start_time, end_time := s.end_time }
    else a :: mergeShortSpecLoop minDuration rest s

/-- Modelled from the spec (§4.4): the accumulator is seeded with the
first keep-interval; the empty list stays empty. -/
def mergeShortSpecModel (minDuration : ℚ) : List Seg → List Seg
  | [] => []
  | first :: rest => mergeShortSpecLoop minDuration rest first

example : mergeShortSegments 10 [⟨0, 6⟩, ⟨12, 18⟩, ⟨24, 30⟩] = [⟨0, 18⟩, ⟨24, 30⟩] := by
  simp only [mergeShortSegments, List.cons_ne_nil, if_false, ite_false, reduceCtorEq]
  norm_num [mergeShortStep, List.getLastD]
example : mergeShortSpecModel 10 [⟨0, 6⟩, ⟨12, 18⟩, ⟨24, 30⟩] = [⟨0, 18⟩, ⟨24, 30⟩] := by
  norm_num [mergeShortSpecModel, mergeShortSpecLoop]

lemma foldl_mergeShortStep (m : ℚ) :
    ∀ (rest frozen : List Seg) (a : Seg),
      List.foldl (mergeShortStep m) (frozen ++ [a]) rest =
        frozen ++ mergeShortSpecLoop m rest a := by
  intro rest
  induction rest with
  | nil => intro frozen a; simp [mergeShortSpecLoop]
  | cons s rest' ih =>
    intro frozen a
    have hlast : (frozen ++ [a]).getLastD { start_time := 0, end_time := 0 } = a := by
      simp [List.getLastD_concat]
    have hdrop : (frozen ++ [a]).dropLast = frozen := by
      simp [List.dropLast_concat]
    simp only [List.foldl_cons]
    by_cases h1 : s.end_time - s.start_time < m
    · by_cases h2 : a.end_time - a.start_time < m
      · have hstep : mergeShortStep m (frozen ++ [a]) s =
            frozen ++ [{ start_time := a.start_time, end_time := s.end_time }] := by
          simp only [mergeShortStep, hlast, hdrop, if_pos h1, if_pos h2]
        rw [hstep, ih, mergeShortSpecLoop, if_pos ⟨h1, h2⟩]
      · have hstep : mergeShortStep m (frozen ++ [a]) s = (frozen ++ [a]) ++ [s] := by
          simp only [mergeShortStep, hlast, if_pos h1, if_neg h2]
        rw [hstep, ih, mergeShortSpecLoop, if_neg (fun h => h2 h.2)]
        simp
    · have hstep : mergeShortStep m (frozen ++ [a]) s = (frozen ++ [a]) ++ [s] := by
        simp only [mergeShortStep, if_neg h1]
      rw [hstep, ih, mergeShortSpecLoop, if_neg (fun h => h1 h.1)]
      simp

lemma mergeShort_eq_spec (m : ℚ) (l : List Seg) :
    mergeShortSegments m l = mergeShortSpecModel m l := by
  cases l with
  | nil => rfl
  | cons s rest =>
    cases rest with
    | nil => rfl
    | cons x xs =>
      show List.foldl (mergeShortStep m) [s] (x :: xs) = mergeShortSpecLoop m (x :: xs) s
      have := foldl_mergeShortStep m (x :: xs) [] s
      simpa using this

lemma specLoop_long_head (m : ℚ) (a : Seg) (l : List Seg)
    (ha : ¬(a.end_time - a.start_time < m)) :
    ∃ t, mergeShortSpecLoop m l a = a :: t := by
  cases l with
  | nil => exact ⟨[], rfl⟩
  | cons s rest =>
    refine ⟨mergeShortSpecLoop m rest s, ?_⟩
    rw [mergeShortSpecLoop, if_neg (fun h => ha h.2)]

lemma specLoop_chain (m : ℚ) :
    ∀ (l : List Seg) (a : Seg),
      (mergeShortSpecLoop m l a).Chain' fun x y =>
        ¬(x.end_time - x.start_time < m ∧ y.end_time - y.start_time < m) := by
  intro l
  induction l with
  | nil => intro a; simp [mergeShortSpecLoop]
  | cons s rest ih =>
    intro a
    by_cases hcond : s.end_time - s.start_time < m ∧ a.end_time - a.start_time < m
    · rw [mergeShortSpecLoop, if_pos hcond]
      exact ih _
    · rw [mergeShortSpecLoop, if_neg hcond]
      rw [List.chain'_cons']
      refine ⟨?_, ih s⟩
      intro h hh
      rcases not_and_or.mp hcond with hns | hna
      · obtain ⟨t, ht⟩ := specLoop_long_head m s rest hns
        rw [ht] at hh
        simp only [List.head?_cons, Option.mem_def, Option.some.injEq] at hh
        subst hh
        exact fun hc => hns hc.2
      · exact fun hc => hna hc.1

lemma specLoop_of_chain (m : ℚ) :
    ∀ (l : List Seg) (a : Seg),
      (a :: l).Chain' (fun x y =>
        ¬(x.end_time - x.start_time < m ∧ y.end_time - y.start_time < m)) →
      mergeShortSpecLoop m l a = a :: l := by
  intro l
  induction l with
  | nil => intro a _; rfl
  | cons s rest ih =>
    intro a hch
    obtain ⟨hras, htail⟩ := List.chain'_cons.mp hch
    rw [mergeShortSpecLoop, if_neg (fun h => hras ⟨h.2, h.1⟩), ih s htail]

lemma specLoop_cons_shape (m : ℚ) :
    ∀ (l : List Seg) (a : Seg), ∃ c t, mergeShortSpecLoop m l a = c :: t := by
  intro l
  induction l with
  | nil => intro a; exact ⟨a, [], rfl⟩
  | cons s rest ih =>
    intro a
    by_cases hcond : s.end_time - s.start_time < m ∧ a.end_time - a.start_time < m
    · rw [mergeShortSpecLoop, if_pos hcond]
      exact ih _
    · rw [mergeShortSpecLoop, if_neg hcond]
      exact ⟨a, mergeShortSpecLoop m rest s, rfl⟩

/-- C2: `_merge_short_segments` performs exactly the one-pass
accumulator algorithm described by the spec (merge into the last
interval iff both durations are strictly below `min_duration`, else
append unmodified), and a segment following an already-long last
interval is never absorbed into it: it is appended unmodified whatever
its own duration. -/
theorem merge_short_matches_spec_policy :
    (∀ (minDuration : ℚ) (segments : List Seg),
      mergeShortSegments minDuration segments = mergeShortSpecModel minDuration segments) ∧
    (∀ (minDuration : ℚ) (a s : Seg) (rest : List Seg),
      ¬(a.end_time - a.start_time < minDuration) →
      mergeShortSegments minDuration (a :: s :: rest) =
        a :: mergeShortSegments minDuration (s :: rest)) := by
  constructor
  · exact mergeShort_eq_spec
  · intro m a s rest ha
    rw [mergeShort_eq_spec, mergeShort_eq_spec]
    show mergeShortSpecLoop m (s :: rest) a = a :: mergeShortSpecLoop m rest s
    rw [mergeShortSpecLoop, if_neg (fun h => ha h.2)]

/-- Witness for C2 at `min_duration = 10`, a long first interval
`[0, 20)` followed by the short interval `[20, 21)`. -/
theorem merge_short_matches_spec_policy_witness :
    mergeShortSegments 10 [⟨0, 20⟩, ⟨20, 21⟩] =
      (⟨0, 20⟩ : Seg) :: mergeShortSegments 10 [⟨20, 21⟩] :=
  merge_short_matches_spec_policy.2 10 ⟨0, 20⟩ ⟨20, 21⟩ [] (by norm_num)

/-- C8: `_merge_short_segments` is idempotent: applied to its own
output (for the same `min_duration`) it returns that output
unchanged, for every input list and every `min_duration`. -/
theorem merge_short_idempotent :
    ∀ (minDuration : ℚ) (segments : List Seg),
      mergeShortSegments minDuration (mergeShortSegments minDuration segments) =
        mergeShortSegments minDuration segments := by
  intro m l
  cases l with
  | nil => rfl
  | cons s rest =>
    rw [mergeShort_eq_spec m (s :: rest)]
    rw [mergeShort_eq_spec]
    show mergeShortSpecModel m (mergeShortSpecLoop m rest s) = mergeShortSpecLoop m rest s
    obtain ⟨c, t, hct⟩ := specLoop_cons_shape m rest s
    rw [hct]
    show mergeShortSpecLoop m t c = c :: t
    apply specLoop_of_chain
    rw [← hct]
    exact specLoop_chain m rest s

/-- Embeds the per-element effect of `VideoEditor._validate_segments`
(video_editor.py lines 229-245) on one segment dict: a negative
`start_time` is raised to 0 and an `end_time` above the video duration
is lowered to the duration; all other values are left untouched (the
`float(...)` coercion is the identity in this exact-arithmetic model). -/
def clampSegment (videoDuration : ℚ) (seg : Seg) : Seg :=
  { start_time := if seg.start_time < 0 then 0 else seg.start_time,
    end_time := if seg.end_time > videoDuration then videoDuration else seg.end_time }

/-- Embeds `VideoEditor._validate_segments` (video_editor.py lines
221-249): every segment dict is clamped in place; a segment left with
`end_time ≤ start_time` is only logged with a "skipping" warning — it is
not removed from the list. -/
def validateSegments (segments : List Seg) (videoDuration : ℚ) : List Seg :=
  segments.map (clampSegment videoDuration)

/-- State-passing model of the in-place mutation `edit_video` performs
on the caller's `segments_to_remove` list (video_editor.py lines 76-82):
`sorted(...)` builds a new list but shares the element dicts, and
`_validate_segments` mutates each shared dict, so after the call the
caller's list holds the clamped values in its original order. -/
def callerSegmentsAfterEditVideo (segments : List Seg) (videoDuration : ℚ) : List Seg :=
  validateSegments segments videoDuration

/-- C3 (code-bug evidence): the remove-segment `[5, 3)` has
`end_time ≤ start_time`, yet it survives `_validate_segments` unchanged
— the code only logs "skipping" without removing it — and reaches
`_get_segments_to_keep`, which then emits the overlapping keep segments
`[0, 5)` and `[3, 10)`.  Dropping it, as the spec states, would give
the single keep segment `[0, 10)`. -/
theorem degenerate_segment_reaches_complement :
    validateSegments [⟨5, 3⟩] 10 = [⟨5, 3⟩] ∧
    getSegmentsToKeep (validateSegments [⟨5, 3⟩] 10) 10 = [⟨0, 5⟩, ⟨3, 10⟩] ∧
    ¬ Disjoint (segSet ⟨0, 5⟩) (segSet ⟨3, 10⟩) := by
  refine ⟨by decide, by decide, ?_⟩
  rw [Set.not_disjoint_iff]
  refine ⟨4, ?_, ?_⟩ <;> simp [segSet] <;> norm_num

/-- C10 counterexample: for the caller-supplied segment `[15, 20)` and
`video_duration = 10`, the post-call value of the caller's dict is
`[15, 10)`: its `start_time` 15 is not clamped into `[0, 10]`, refuting
the claim that both fields are clamped into `[0, video_duration]`. -/
theorem caller_segments_clamp_one_sided_cex :
    callerSegmentsAfterEditVideo [⟨15, 20⟩] 10 = [⟨15, 10⟩] ∧ ¬((15 : ℚ) ≤ 10) := by
  refine ⟨by decide, by norm_num⟩

/-- C10 amended: `edit_video` mutates the caller's segment dicts in
place (modelled by state passing): after the call each element holds
`start_time = max(start_time, 0)` and `end_time = min(end_time,
video_duration)` — one-sided clamps, not a full clamp into
`[0, video_duration]` — and the caller's values can really change. -/
theorem caller_segments_mutated_amended :
    (∀ (segments : List Seg) (D : ℚ),
      callerSegmentsAfterEditVideo segments D =
        segments.map fun seg =>
          { start_time := max seg.start_time 0, end_time := min seg.end_time D }) ∧
    callerSegmentsAfterEditVideo [⟨-1, 20⟩] 10 ≠ [⟨-1, 20⟩] := by
  constructor
  · intro segments D
    show segments.map _ = segments.map _
    apply List.map_congr_left
    intro seg _
    show clampSegment D seg = _
    unfold clampSegment
    congr 1
    · rcases lt_or_le seg.start_time 0 with h | h
      · rw [if_pos h, max_eq_right (le_of_lt h)]
      · rw [if_neg (not_lt.mpr h), max_eq_left h]
    · rcases lt_or_le D seg.end_time with h | h
      · rw [if_pos h, min_eq_right (le_of_lt h)]
      · rw [if_neg (not_lt.mpr h), min_eq_left h]
  · intro h
    have := congrArg (fun l => (l.headD ⟨0, 0⟩).start_time) h
    simp only [callerSegmentsAfterEditVideo, validateSegments, clampSegment, List.map_cons,
      List.map_nil, List.headD_cons] at this
    norm_num at this

/-- Embeds `int(frame_count * 0.05)` (thumbnail_generator.py lines 169,
228, 302) in exact arithmetic: truncating a non-negative value is a
floor, and `⌊frame_count * 5/100⌋` is `frame_count * 5 / 100` in natural
division. -/
def startFrame (frameCount : ℕ) : ℕ := frameCount * 5 / 100

/-- Embeds `int(frame_count * 0.95)` (thumbnail_generator.py lines 170,
229, 303) in exact arithmetic. -/
def endFrame (frameCount : ℕ) : ℕ := frameCount * 95 / 100

/-- Size of the restricted usable index range `[0.05 fc, 0.95 fc)`. -/
def usableCount (frameCount : ℕ) : ℕ := endFrame frameCount - startFrame frameCount

/-- Embeds the range restriction and fallback of
`_extract_uniform_frames` (thumbnail_generator.py lines 168-177): the
pair `(start_frame, end_frame)` actually used. -/
def uniformRangeParams (frameCount : ℕ) : ℕ × ℕ :=
  let s := startFrame frameCount
  let e := endFrame frameCount
  if e - s ≤ 0 then (0, frameCount) else (s, e)

/-- Embeds the identical range restriction and fallback of
`_extract_random_frames` (thumbnail_generator.py lines 301-310). -/
def randomRangeParams (frameCount : ℕ) : ℕ × ℕ :=
  let s := startFrame frameCount
  let e := endFrame frameCount
  if e - s ≤ 0 then (0, frameCount) else (s, e)

/-- Embeds the candidate index computation of `_extract_uniform_frames`
(thumbnail_generator.py lines 179-186): every usable index when enough
frames are requested, otherwise `int(start_frame + i * step)` with the
floating-point `step = usable_frame_count / num_frames` modelled as an
exact rational.  The else branch divides by `num_frames` on line 185,
so `num_frames = 0` there raises `ZeroDivisionError`, modelled as
`none`. -/
def uniformFrameIndices (frameCount numFrames : ℕ) : Option (List ℕ) :=
  let p := uniformRangeParams frameCount
  let usable := p.2 - p.1
  if numFrames ≥ usable then some (List.range' p.1 (p.2 - p.1))
  else if numFrames = 0 then none
  else some ((List.range numFrames).map fun i =>
    (⌊(p.1 : ℚ) + (i : ℚ) * ((usable : ℚ) / (numFrames : ℚ))⌋).toNat)

/-- Python `range(s, e, step)` for `step ≥ 1`, as a list of indices. -/
def pyRange (s e step : ℕ) : List ℕ := List.range' s ((e - s + step - 1) / step) step

/-- Embeds `sample_rate = max(1, int(frame_count / 500))` of
`_extract_key_moment_frames` (thumbnail_generator.py line 232): the
stride is computed from `frame_count`, not from the usable count. -/
def keyMomentStride (frameCount : ℕ) : ℕ := max 1 (frameCount / 500)

/-- Embeds the probe loop header `range(start_frame, end_frame,
sample_rate)` of `_extract_key_moment_frames` (thumbnail_generator.py
line 238): no fallback is applied to the restricted range. -/
def keyMomentProbeIndices (frameCount : ℕ) : List ℕ :=
  pyRange (startFrame frameCount) (endFrame frameCount) (keyMomentStride frameCount)

/-- Modelled from the spec (§4.2): restrict the index range to
`[0.05 fc, 0.95 fc)`; if that range collapses to ≤ 0 usable indices,
fall back to the full range `[0, fc)`. -/
def specRestrictedRange (frameCount : ℕ) : ℕ × ℕ :=
  if usableCount frameCount ≤ 0 then (0, frameCount)
  else (startFrame frameCount, endFrame frameCount)

/-- Modelled from the spec (§4.2, Uniform): propose every index of the
usable range when `target_count ≥ usable_count`, otherwise the indices
`floor(start + i * step)` for `i = 0 .. target_count - 1` with
`step = usable_count / target_count`. -/
def specUniformIndices (frameCount targetCount : ℕ) : List ℕ :=
  let p := specRestrictedRange frameCount
  let usable := p.2 - p.1
  if targetCount ≥ usable then List.range' p.1 usable
  else (List.range targetCount).map fun i =>
    (⌊(p.1 : ℚ) + (i : ℚ) * ((usable : ℚ) / (targetCount : ℚ))⌋).toNat

example : uniformFrameIndices 100 4 = some [5, 27, 50, 72] := by
  norm_num [uniformFrameIndices, uniformRangeParams, startFrame, endFrame,
    List.range_succ, Int.floor_eq_iff]
  decide
example : keyMomentProbeIndices 1 = [] := by decide

lemma uniformRangeParams_le (frameCount : ℕ) :
    (uniformRangeParams frameCount).1 ≤ (uniformRangeParams frameCount).2 := by
  have h : uniformRangeParams frameCount =
      if endFrame frameCount - startFrame frameCount ≤ 0 then (0, frameCount)
      else (startFrame frameCount, endFrame frameCount) := rfl
  rw [h]
  split_ifs with h'
  · exact Nat.zero_le _
  · omega

/-- C4 counterexample: at `frame_count = 1` the restricted range
`[0, 0)` is empty; the key-moment strategy probes nothing at all, while
the claimed fallback to the full range `[0, 1)` would probe index 0. -/
theorem key_moment_no_fallback_cex :
    keyMomentProbeIndices 1 = [] ∧ pyRange 0 1 (keyMomentStride 1) = [0] := by
  exact ⟨by decide, by decide⟩

/-- C4 amended: uniform and random restrict the index range to
`[0.05 fc, 0.95 fc)` and fall back to the full range `[0, fc)` when the
restricted range is empty (which happens exactly when `fc ≤ 1`); the
key-moment strategy restricts likewise but never falls back — on an
empty restricted range it probes no indices at all. -/
theorem sampling_range_fallback_amended :
    ∀ frameCount : ℕ,
      (usableCount frameCount = 0 ↔ frameCount ≤ 1) ∧
      (frameCount ≤ 1 →
        uniformRangeParams frameCount = (0, frameCount) ∧
        randomRangeParams frameCount = (0, frameCount) ∧
        keyMomentProbeIndices frameCount = []) ∧
      (1 < frameCount →
        uniformRangeParams frameCount = (startFrame frameCount, endFrame frameCount) ∧
        randomRangeParams frameCount = (startFrame frameCount, endFrame frameCount)) ∧
      keyMomentProbeIndices frameCount =
        pyRange (startFrame frameCount) (endFrame frameCount) (keyMomentStride frameCount) := by
  intro fc
  have hiff : usableCount fc = 0 ↔ fc ≤ 1 := by
    unfold usableCount endFrame startFrame
    omega
  refine ⟨hiff, ?_, ?_, rfl⟩
  · intro h
    rcases Nat.le_one_iff_eq_zero_or_eq_one.mp h with rfl | rfl
    · exact ⟨by decide, by decide, by decide⟩
    · exact ⟨by decide, by decide, by decide⟩
  · intro h
    have hne : ¬(endFrame fc - startFrame fc ≤ 0) := by
      have := hiff.not.mpr (by omega)
      unfold usableCount at this
      omega
    constructor
    · unfold uniformRangeParams
      rw [if_neg hne]
    · unfold randomRangeParams
      rw [if_neg hne]

/-- Witness for the amended C4 theorem: the fallback branch at
`frame_count = 1` and the restricted branch at `frame_count = 100`. -/
theorem sampling_range_fallback_amended_witness :
    (uniformRangeParams 1 = (0, 1) ∧ randomRangeParams 1 = (0, 1) ∧
      keyMomentProbeIndices 1 = []) ∧
    (uniformRangeParams 100 = (startFrame 100, endFrame 100) ∧
      randomRangeParams 100 = (startFrame 100, endFrame 100)) :=
  ⟨(sampling_range_fallback_amended 1).2.1 (by decide),
    (sampling_range_fallback_amended 100).2.2.1 (by decide)⟩

/-- C6 counterexample: at `frame_count = 1000` the code stride is
`max(1, int(1000/500)) = 2` while the claimed formula from the usable
count gives `max(1, int(900/500)) = 1`; and at `frame_count = 999` the
key-moment strategy examines 900 probe points, violating the claimed
bound of at most 500. -/
theorem key_moment_stride_cex :
    (keyMomentStride 1000 = 2 ∧ max 1 (usableCount 1000 / 500) = 1) ∧
    (keyMomentProbeIndices 999).length = 900 ∧
    ¬((keyMomentProbeIndices 999).length ≤ 500) := by
  refine ⟨⟨by decide, by decide⟩, ?_, ?_⟩ <;>
    norm_num [keyMomentProbeIndices, pyRange, keyMomentStride, startFrame, endFrame,
      List.length_range']

/-- C6 amended: the probe stride of the key-moment strategy is
`max(1, int(frame_count / 500))` — computed from `frame_count`, not from
the usable count — and the number of probe points is bounded by 900
(not 500; 900 is attained at `frame_count = 999`). -/
theorem key_moment_stride_amended :
    ∀ frameCount : ℕ,
      keyMomentStride frameCount = max 1 (frameCount / 500) ∧
      (keyMomentProbeIndices frameCount).length ≤ 900 := by
  intro fc
  refine ⟨rfl, ?_⟩
  rw [keyMomentProbeIndices, pyRange, List.length_range']
  rcases le_or_lt fc 999 with h | h
  · have hs : keyMomentStride fc = 1 := by unfold keyMomentStride; omega
    rw [hs]
    unfold endFrame startFrame
    omega
  · have hs : keyMomentStride fc = fc / 500 := by unfold keyMomentStride; omega
    have h1 : 0 < fc / 500 := by omega
    rw [hs, ← Nat.lt_succ_iff, Nat.div_lt_iff_lt_mul h1]
    unfold endFrame startFrame
    omega

/-- C7 counterexample: at `frame_count = 100` and `target_count = 0`
the usable range `[5, 95)` is non-empty and `target_count <
usable_count`, so line 185 computes `step = usable_frame_count /
num_frames` and raises `ZeroDivisionError` (modelled `none`): the code
proposes nothing at all, where the claim asserts a normal proposal for
every `frame_count` and `target_count`. -/
theorem uniform_target_zero_cex :
    uniformFrameIndices 100 0 = none ∧
    ∀ l : List ℕ, uniformFrameIndices 100 0 ≠ some l := by
  refine ⟨by decide, ?_⟩
  intro l h
  rw [show uniformFrameIndices 100 0 = none by decide] at h
  exact Option.noConfusion h

/-- C7 amended: for every `frame_count`, uniform sampling proposes
every index in the usable range when `target_count ≥ usable_count` (in
particular, with `target_count = usable_count` it returns every usable
index exactly once, in ascending order), and for `0 < target_count <
usable_count` it proposes exactly the `target_count` indices
`floor(start + i * step)` with `step = usable_count / target_count`;
with `target_count = 0` and a non-empty usable range, however, line 185
raises `ZeroDivisionError` instead of proposing anything. -/
theorem uniform_sampling_indices_amended :
    (∀ frameCount targetCount : ℕ, 0 < targetCount →
      uniformFrameIndices frameCount targetCount =
        some (specUniformIndices frameCount targetCount)) ∧
    (∀ frameCount : ℕ,
      0 < (uniformRangeParams frameCount).2 - (uniformRangeParams frameCount).1 →
      uniformFrameIndices frameCount 0 = none) ∧
    (∀ frameCount : ℕ,
      uniformFrameIndices frameCount
          ((uniformRangeParams frameCount).2 - (uniformRangeParams frameCount).1) =
        some (List.range' (uniformRangeParams frameCount).1
          ((uniformRangeParams frameCount).2 - (uniformRangeParams frameCount).1)) ∧
      (List.range' (uniformRangeParams frameCount).1
          ((uniformRangeParams frameCount).2 - (uniformRangeParams frameCount).1)).Pairwise
        (· < ·) ∧
      ∀ i : ℕ,
        i ∈ List.range' (uniformRangeParams frameCount).1
            ((uniformRangeParams frameCount).2 - (uniformRangeParams frameCount).1) ↔
          ((uniformRangeParams frameCount).1 ≤ i ∧ i < (uniformRangeParams frameCount).2)) := by
  refine ⟨?_, ?_, ?_⟩
  · intro fc tc htc
    have hr : specRestrictedRange fc = uniformRangeParams fc := rfl
    unfold uniformFrameIndices specUniformIndices
    rw [hr]
    by_cases hge : tc ≥ (uniformRangeParams fc).2 - (uniformRangeParams fc).1
    · rw [if_pos hge, if_pos hge]
    · rw [if_neg hge, if_neg hge, if_neg (show ¬(tc = 0) by omega)]
  · intro fc hu
    unfold uniformFrameIndices
    rw [if_neg (by omega), if_pos rfl]
  · intro fc
    have heq : uniformFrameIndices fc
          ((uniformRangeParams fc).2 - (uniformRangeParams fc).1) =
        some (List.range' (uniformRangeParams fc).1
          ((uniformRangeParams fc).2 - (uniformRangeParams fc).1)) := by
      unfold uniformFrameIndices
      rw [if_pos (le_refl _)]
    refine ⟨heq, List.pairwise_lt_range' _ _ 1, ?_⟩
    intro i
    rw [List.mem_range'_1]
    have := uniformRangeParams_le fc
    omega

/-- Witness for the amended C7 theorem: the floor-formula branch at
`frame_count = 100`, `target_count = 4` and the error branch at
`target_count = 0`. -/
theorem uniform_sampling_indices_amended_witness :
    uniformFrameIndices 100 4 = some (specUniformIndices 100 4) ∧
    uniformFrameIndices 100 0 = none :=
  ⟨uniform_sampling_indices_amended.1 100 4 (by decide),
    uniform_sampling_indices_amended.2.1 100 (by decide)⟩

/-- A probe of the key-moment strategy, modelled as the pair
`(frame_idx, diff_score)`; the relation orders probes by score
descending and is the key of the Python sort on line 260 of
thumbnail_generator.py (the frame payload plays no role). -/
def scoreDescRel (a b : ℕ × ℚ) : Prop := b.2 ≤ a.2

instance : DecidableRel scoreDescRel :=
  fun a b => inferInstanceAs (Decidable (b.2 ≤ a.2))

instance : IsTotal (ℕ × ℚ) scoreDescRel := ⟨fun a b => le_total b.2 a.2⟩

instance : IsTrans (ℕ × ℚ) scoreDescRel := ⟨fun _ _ _ h1 h2 => le_trans h2 h1⟩

/-- Embeds `frame_diffs.sort(key=lambda x: x[1], reverse=True)`
(thumbnail_generator.py line 260): Python's list sort is stable and
orders by score descending, which for the total transitive preorder
`scoreDescRel` is exactly the stable insertion sort. -/
def rankProbesByScore (diffs : List (ℕ × ℚ)) : List (ℕ × ℚ) :=
  List.insertionSort scoreDescRel diffs

lemma orderedInsert_tie_stable (a : ℕ × ℚ) :
    ∀ l : List (ℕ × ℚ), (∀ x ∈ l, a.1 < x.1) →
      l.Pairwise (fun x y => x.2 = y.2 → x.1 < y.1) →
      (List.orderedInsert scoreDescRel a l).Pairwise
        (fun x y => x.2 = y.2 → x.1 < y.1) := by
  intro l
  induction l with
  | nil => intro _ _; simp
  | cons b l' ih =>
    intro hidx hpw
    rw [List.orderedInsert]
    split_ifs with hr
    · refine List.Pairwise.cons ?_ hpw
      intro x hx _
      exact hidx x hx
    · obtain ⟨hb, hl'⟩ := List.pairwise_cons.mp hpw
      refine List.Pairwise.cons ?_
        (ih (fun x hx => hidx x (List.mem_cons.mpr (Or.inr hx))) hl')
      intro y hy
      rcases (List.mem_orderedInsert scoreDescRel).mp hy with rfl | hy'
      · exact fun hs => absurd (le_of_eq hs) hr
      · exact hb y hy'

lemma insertionSort_tie_stable :
    ∀ l : List (ℕ × ℚ), l.Pairwise (fun x y => x.1 < y.1) →
      (List.insertionSort scoreDescRel l).Pairwise
        (fun x y => x.2 = y.2 → x.1 < y.1) := by
  intro l
  induction l with
  | nil => intro _; simp
  | cons a l' ih =>
    intro hpw
    obtain ⟨ha, hl'⟩ := List.pairwise_cons.mp hpw
    rw [List.insertionSort]
    refine orderedInsert_tie_stable a _ ?_ (ih hl')
    intro x hx
    exact ha x ((List.mem_insertionSort scoreDescRel).mp hx)

/-- C9: the key-moment ranking of probes is a permutation of the probe
list, sorted by score descending, and stable: whenever the probe list
is in ascending frame-index order (as built by the code), any two
probes with equal scores appear in the ranked list with the lower frame
index first, i.e. in original probe order. -/
theorem key_moment_rank_stable :
    ∀ diffs : List (ℕ × ℚ),
      diffs.Pairwise (fun a b => a.1 < b.1) →
      (rankProbesByScore diffs).Perm diffs ∧
      (rankProbesByScore diffs).Pairwise (fun a b => b.2 ≤ a.2) ∧
      (rankProbesByScore diffs).Pairwise (fun a b => a.2 = b.2 → a.1 < b.1) := by
  intro diffs h
  exact ⟨List.perm_insertionSort scoreDescRel diffs,
    List.sorted_insertionSort scoreDescRel diffs,
    insertionSort_tie_stable diffs h⟩

/-- Witness for C9 at the concrete probe list
`[(1, 7), (2, 5), (3, 5)]` — two tied scores at indices 2 and 3. -/
theorem key_moment_rank_stable_witness :
    (rankProbesByScore [(1, 7), (2, 5), (3, 5)]).Perm [(1, 7), (2, 5), (3, 5)] ∧
    (rankProbesByScore [(1, 7), (2, 5), (3, 5)]).Pairwise (fun a b => b.2 ≤ a.2) ∧
    (rankProbesByScore [(1, 7), (2, 5), (3, 5)]).Pairwise
      (fun a b => a.2 = b.2 → a.1 < b.1) :=
  key_moment_rank_stable [(1, 7), (2, 5), (3, 5)] (by decide)

/-- A decoded frame as a matrix of BGR pixels, each channel an exact
rational. -/
abbrev Frame := List (List (ℚ × ℚ × ℚ))

/-- Luminance of one BGR pixel with the OpenCV BGR-to-gray weights
`Y = 0.299 R + 0.587 G + 0.114 B` in exact arithmetic. -/
def pixelGray (p : ℚ × ℚ × ℚ) : ℚ :=
  (299 / 1000) * p.2.2 + (587 / 1000) * p.2.1 + (114 / 1000) * p.1

/-- A frame is zero-area when it has no rows or its first row is
empty. -/
def frameIsEmpty (f : Frame) : Bool :=
  f.isEmpty || (f.headD []).isEmpty

/-- Models `cv2.cvtColor(frame, cv2.COLOR_BGR2GRAY)`
(thumbnail_generator.py line 354): OpenCV asserts `!_src.empty()`, so a
zero-area input raises `cv2.error`, modelled as `none`; otherwise the
BGR frame is converted to its luminance matrix. -/
def cvtColorBGR2Gray (f : Frame) : Option (List (List ℚ)) :=
  if frameIsEmpty f then none else some (f.map (·.map pixelGray))

/-- All entries of a matrix in row order. -/
def matElems (g : List (List ℚ)) : List ℚ := g.flatten

/-- Models `np.mean` on a matrix (undefined, NaN, on an empty buffer;
here total with the junk value 0/0 = 0, only ever used on non-empty
matrices). -/
def matMean (g : List (List ℚ)) : ℚ := (matElems g).sum / (matElems g).length

/-- Models the population variance (`np.var`, and `np.std` squared) of
a matrix. -/
def matVariance (g : List (List ℚ)) : ℚ :=
  ((matElems g).map fun x => (x - matMean g) ^ 2).sum / (matElems g).length

/-- OpenCV `borderInterpolate` for the default `BORDER_REFLECT_101`
border, at distance at most one outside the matrix. -/
def reflect101 (n : ℕ) (i : ℤ) : ℕ :=
  if n ≤ 1 then 0
  else if i < 0 then (-i).toNat
  else if (n : ℤ) ≤ i then (2 * (n - 1) - i).toNat
  else i.toNat

/-- Matrix access with reflected border indices. -/
def matGet (g : List (List ℚ)) (i j : ℤ) : ℚ :=
  let row := g.getD (reflect101 g.length i) []
  row.getD (reflect101 row.length j) 0

/-- Models `cv2.Laplacian(gray, cv2.CV_64F)` (thumbnail_generator.py
line 367) with the default aperture (kernel `[[0,1,0],[1,-4,1],[0,1,0]]`)
and default reflect-101 border. -/
def laplacianMat (g : List (List ℚ)) : List (List ℚ) :=
  (List.range g.length).map fun i =>
    (List.range (g.getD i []).length).map fun j =>
      matGet g ((i : ℤ) - 1) j + matGet g ((i : ℤ) + 1) j +
        matGet g i ((j : ℤ) - 1) + matGet g i ((j : ℤ) + 1) -
        4 * matGet g i j

/-- Embeds `ThumbnailGenerator._is_good_quality_frame`
(thumbnail_generator.py lines 343-373).  The grayscale conversion fails
on a zero-area frame (`cv2.error`, modelled `none`); otherwise the
three threshold checks run in order.  The contrast check
`np.std(gray) < min_contrast` compares a square root, so it is stated
on the variance: for a non-negative threshold it is
`variance < min_contrast²` and for a negative threshold it is false.
The sharpness threshold is the fixed constant 100 of line 370. -/
def isGoodQualityFrame (minBrightness minContrast : ℚ) (frame : Frame) : Option Bool :=
  match cvtColorBGR2Gray frame with
  | none => none
  | some gray =>
    if matMean gray < minBrightness then some false
    else if 0 ≤ minContrast ∧ matVariance gray < minContrast ^ 2 then some false
    else if matVariance (laplacianMat gray) < 100 then some false
    else some true

/-- C5 counterexample: on the zero-area frame the quality gate does not
return a rejected verdict — the grayscale conversion errors out
(`none`), refuting the claim that evaluation never raises and rejects
zero-area frames. -/
theorem quality_gate_empty_frame_cex :
    isGoodQualityFrame 10 20 ([] : Frame) = none ∧
    isGoodQualityFrame 10 20 ([] : Frame) ≠ some false := by
  refine ⟨rfl, ?_⟩
  intro h
  rw [show isGoodQualityFrame 10 20 ([] : Frame) = none from rfl] at h
  exact Option.noConfusion h

/-- C5 amended: the quality gate is a pure function of the frame but
has no zero-area guard: on a zero-area frame the grayscale conversion
fails (the `cv2.error` propagates, modelled `none`) instead of
returning `accepted = false`; on every frame of non-zero area it does
return a verdict. -/
theorem quality_gate_verdict_amended :
    ∀ (minBrightness minContrast : ℚ) (frame : Frame),
      (frameIsEmpty frame = true →
        isGoodQualityFrame minBrightness minContrast frame = none) ∧
      (frameIsEmpty frame = false →
        ∃ b, isGoodQualityFrame minBrightness minContrast frame = some b) := by
  intro mb mc f
  constructor
  · intro h
    simp [isGoodQualityFrame, cvtColorBGR2Gray, h]
  · intro h
    simp only [isGoodQualityFrame, cvtColorBGR2Gray, h, Bool.false_eq_true, if_false]
    split_ifs <;> exact ⟨_, rfl⟩

/-- Witness for the amended C5 theorem: the empty frame errors, a 1x1
black frame gets a verdict. -/
theorem quality_gate_verdict_amended_witness :
    isGoodQualityFrame 10 20 ([] : Frame) = none ∧
    ∃ b, isGoodQualityFrame 10 20 ([[(0, 0, 0)]] : Frame) = some b :=
  ⟨(quality_gate_verdict_amended 10 20 []).1 rfl,
    (quality_gate_verdict_amended 10 20 [[(0, 0, 0)]]).2 rfl⟩

/-- Witness for the universally quantified part of the amended C10
theorem at a concrete input. -/
theorem caller_segments_mutated_amended_witness :
    callerSegmentsAfterEditVideo [⟨-1, 20⟩] 10 =
      ([⟨-1, 20⟩] : List Seg).map fun seg =>
        { start_time := max seg.start_time 0, end_time := min seg.end_time (10 : ℚ) } :=
  caller_segments_mutated_amended.1 [⟨-1, 20⟩] 10
